import Mathlib

set_option maxHeartbeats 1000000

/-!
Shallow embedding of the chunked-upload reassembly engine of
`app/evaluation/widgets/uploader.py`.

Bytes are modelled as `Nat`, byte strings as `List Nat`.  Database rows of
the `StagedFile` model (external to the widget module; its fields are the
ones the widget reads and writes) are records, and the chunk store is the
list of rows in insertion order; Django's `objects.create` appends a row,
and an unordered queryset's `first()` is taken to be the first row in
insertion order.  `uuid.uuid4()` is modelled by a caller-supplied fresh
identifier.  Python's unbounded ints are `Nat` where the source can only
produce non-negative values on the inputs the theorems speak about, and
`Int` where a subtraction can genuinely go negative (the running
`remaining_size` in `StagedAjaxFile.size`, seek offsets).
-/


/-- One row of the `StagedFile` model, with the fields used by the widget:
`csrf`, `client_id`, `client_filename`, `file_id`, `file` (the payload
bytes), `start_byte`, `end_byte`, `total_size`. -/
structure StagedFile where
  csrf : String
  client_id : Option String
  client_filename : String
  file_id : Nat
  file : List Nat
  start_byte : Nat
  end_byte : Nat
  total_size : Option Nat
  deriving DecidableEq, Repr

/-! ## IntervalMap

`IntervalMap.__endpoints` is a list of `(cumulative end offset, label)`
pairs.  Python sorts tuples lexicographically; every appended endpoint is
`len(self) + length`, which for the positive lengths produced by chunks is
strictly greater than every existing endpoint, so sorting by the offset
component alone coincides with Python's tuple sort on all states reachable
in this development (no ties ever arise). -/

/-- Embeds `IntervalMap.__len__`: the last endpoint, or 0 for the empty map. -/
def map_len (m : List (Nat × α)) : Nat :=
  match m.getLast? with
  | some p => p.1
  | none => 0

/-- Embeds `IntervalMap.append_interval`: append `(len(self) + length, label)` and
re-sort the endpoint list. -/
def append_interval (m : List (Nat × α)) (length : Nat) (label : α) : List (Nat × α) :=
  List.insertionSort (fun a b => a.1 ≤ b.1) (m ++ [(map_len m + length, label)])

/-- Embeds `self.__endpoints[k][0]`; 0 when out of bounds (the source would raise
IndexError, which no call site reaches). -/
def ep_at (m : List (Nat × α)) (k : Nat) : Nat :=
  match m.get? k with
  | some p => p.1
  | none => 0

/-- Embeds `self.__endpoints[k][1]`. -/
def lab_at (m : List (Nat × α)) (k : Nat) : Option α :=
  (m.get? k).map (fun p => p.2)

/-- The nested-interval `find` of `IntervalMap.__find_endpoint_index`.
The structural fuel bounds the recursion depth by `e - start`, which the
source's recursion consumes in the same way; all call sites pass enough
fuel, and the `e ≤ start` test returns `start` exactly as the source's
`start == end` base case does on every reachable call (`start ≤ e`
always holds there). -/
def interval_find_go (m : List (Nat × α)) (i : Nat) : Nat → Nat → Nat → Nat
  | 0, start, _ => start
  | fuel + 1, start, e =>
    if e ≤ start then start
    else
      let mid := (start + e) / 2
      if i < ep_at m mid then interval_find_go m i fuel start mid
      else interval_find_go m i fuel (mid + 1) e

/-- Embeds `IntervalMap.__find_endpoint_index`: `None` when `i >= len(self)`,
otherwise `find(0, len(self.__endpoints))`. -/
def find_endpoint_index (m : List (Nat × α)) (i : Nat) : Option Nat :=
  if map_len m ≤ i then none
  else some (interval_find_go m i m.length 0 m.length)

/-- Embeds `IntervalMap.get_offset`. -/
def interval_get_offset (m : List (Nat × α)) (i : Nat) : Option Nat :=
  match find_endpoint_index m i with
  | none => none
  | some 0 => some 0
  | some (k + 1) => some (ep_at m k)

/-- Embeds `IntervalMap.__getitem__`: the label owning offset `i`. -/
def interval_get (m : List (Nat × α)) (i : Nat) : Option α :=
  match find_endpoint_index m i with
  | none => none
  | some k => lab_at m k

/-! ## OpenedStagedAjaxFile (the reassembled-file reader) -/

/-- Reader state.  `chunks` is the chunk list sorted by `start_byte`;
`chunk_map` labels offsets with indices into `chunks` (the source labels
them with the chunk objects themselves and compares with `is`; indices
model object identity).  `current_chunk`/`current_pos` model the at most
one open underlying chunk stream and its file position — the source
positions that stream only inside `read`, when it switches chunks. -/
structure OpenedStagedAjaxFile where
  chunks : List StagedFile
  chunk_map : List (Nat × Nat)
  file_pointer : Nat
  current_chunk : Option Nat
  current_pos : Nat
  is_closed : Bool
  deriving DecidableEq, Repr

/-- Embeds `self.__chunks.sort(key=lambda x: x.start_byte)`. -/
def sort_by_start (cs : List StagedFile) : List StagedFile :=
  List.insertionSort (fun a b => a.start_byte ≤ b.start_byte) cs

/-- The `__init__` loop: `append_interval(end - start + 1, chunk)` for each
chunk in sorted order (labels are positions in the sorted list). -/
def build_chunk_map : List (Nat × StagedFile) → List (Nat × Nat) → List (Nat × Nat)
  | [], m => m
  | (j, c) :: rest, m => build_chunk_map rest (append_interval m (c.end_byte - c.start_byte + 1) j)

/-- Embeds `OpenedStagedAjaxFile.__init__`. -/
def open_staged (arrival : List StagedFile) : OpenedStagedAjaxFile :=
  let cs := sort_by_start arrival
  { chunks := cs
    chunk_map := build_chunk_map cs.enum []
    file_pointer := 0
    current_chunk := none
    current_pos := 0
    is_closed := false }

/-- Embeds `OpenedStagedAjaxFile.size` (for an open reader): `len(self.__chunk_map)`. -/
def staged_size (o : OpenedStagedAjaxFile) : Nat := map_len o.chunk_map

/-- What `read` produces: a byte string, or the `EOFError` instance the
source *returns* (not raises) when the pointer is outside `[0, size)`, or
the `IOError` raised on a closed reader. -/
inductive ReadResult
  | bytes (bs : List Nat)
  | eof_error
  | io_error
  deriving DecidableEq, Repr

/-- The `while len(result) < count` loop of `read`.  One fuel unit per
iteration; every call site passes more fuel than the loop can consume on
the complete files the reader is constructed for (each iteration strictly
advances `file_pointer`, which is bounded by `len(self.__chunk_map)`).
The `none` fallbacks mirror source states that no reachable call hits
(`interval_get` is `some` whenever `file_pointer < map_len`). -/
def read_go (count : Nat) : Nat → OpenedStagedAjaxFile → List Nat → List Nat × OpenedStagedAjaxFile
  | 0, o, acc => (acc, o)
  | fuel + 1, o, acc =>
    if acc.length < count then
      if map_len o.chunk_map ≤ o.file_pointer then (acc, o)
      else
        match interval_get o.chunk_map o.file_pointer with
        | none => (acc, o)
        | some j =>
          match o.chunks.get? j with
          | none => (acc, o)
          | some c =>
            -- `if this_chunk is not self.__current_chunk`: open the new
            -- chunk and seek it to `file_pointer - start_byte`.
            let o1 :=
              if o.current_chunk = some j then o
              else { o with current_chunk := some j, current_pos := o.file_pointer - c.start_byte }
            -- `read_size = min(count - len(result), end_byte + 1 - file_pointer)`
            let rs := min (count - acc.length) (c.end_byte + 1 - o1.file_pointer)
            -- `result += file.read(read_size)`: the stream yields at most
            -- the bytes remaining after its current position, and its
            -- position advances by the number of bytes actually read,
            -- while `file_pointer += read_size` regardless.
            let data := (c.file.drop o1.current_pos).take rs
            read_go count fuel
              { o1 with current_pos := o1.current_pos + data.length
                        file_pointer := o1.file_pointer + rs }
              (acc ++ data)
    else (acc, o)

/-- Embeds `OpenedStagedAjaxFile.read(count)`. -/
def file_read (o : OpenedStagedAjaxFile) (count : Nat) : ReadResult × OpenedStagedAjaxFile :=
  if o.is_closed then (.io_error, o)
  else if staged_size o ≤ o.file_pointer then (.eof_error, o)
  else
    let r := read_go count (staged_size o + count + 1) o []
    (.bytes r.1, r.2)

/-- Outcome of `seek`. -/
inductive SeekResult
  | pos (n : Nat)
  | eof_error
  | io_error
  | type_error
  deriving DecidableEq, Repr

/-- Embeds `OpenedStagedAjaxFile.seek(offset, from_what)`.  An unknown
`from_what` leaves `new_pointer = None` and the `0 <= None` comparison
raises TypeError. -/
def file_seek (o : OpenedStagedAjaxFile) (offset : Int) (from_what : Nat) :
    SeekResult × OpenedStagedAjaxFile :=
  if o.is_closed then (.io_error, o)
  else
    let np : Option Int :=
      if from_what = 0 then some offset
      else if from_what = 1 then some ((o.file_pointer : Int) + offset)
      else if from_what = 2 then some ((staged_size o : Int) + offset)
      else none
    match np with
    | none => (.type_error, o)
    | some p =>
      if 0 ≤ p ∧ p ≤ (staged_size o : Int) then
        (.pos p.toNat, { o with file_pointer := p.toNat })
      else (.eof_error, o)

/-- Embeds `OpenedStagedAjaxFile.tell`. -/
def file_tell (o : OpenedStagedAjaxFile) : Option Nat :=
  if o.is_closed then none else some o.file_pointer

/-- Embeds `OpenedStagedAjaxFile.close`. -/
def file_close (o : OpenedStagedAjaxFile) : OpenedStagedAjaxFile :=
  if o.is_closed then o else { o with is_closed := true, current_chunk := none }

/-! ## StagedAjaxFile.size / is_complete (the completeness query) -/

/-- The `for chunk in sorted(chunks, ...)` loop of `StagedAjaxFile.size`
followed by the final `remaining_size` check: walks the sorted chunks,
returns `none` (incomplete) on the first gap, subtracts each chunk's
length from the running `remaining_size` when one is being tracked, and
finally rejects a non-zero remainder. -/
def size_go : List StagedFile → Nat → Option Int → Option Nat
  | [], current, remaining =>
    match remaining with
    | some r => if r ≠ 0 then none else some current
    | none => some current
  | c :: rest, current, remaining =>
    if c.start_byte ≠ current then none
    else size_go rest (c.end_byte + 1)
           (remaining.map (fun r => r - ((c.end_byte : Int) - (c.start_byte : Int) + 1)))

/-- Embeds `StagedAjaxFile.size`: `none` models the NotFoundError raised when no
chunk rows exist; `some none` is an incomplete file; `some (some n)` is a
complete file of size `n`.  `remaining_size` starts from the first stored
chunk that declares a total size, if any. -/
def staged_file_size (chunks : List StagedFile) : Option (Option Nat) :=
  if chunks.isEmpty then none
  else
    let remaining : Option Int :=
      match chunks.find? (fun c => c.total_size.isSome) with
      | some c => c.total_size.map (fun t : Nat => (t : Int))
      | none => none
    some (size_go (sort_by_start chunks) 0 remaining)

/-- Embeds `StagedAjaxFile.is_complete`. -/
def is_complete (chunks : List StagedFile) : Bool :=
  if chunks.isEmpty then false
  else
    match staged_file_size chunks with
    | some (some _) => true
    | _ => false

/-! ## AjaxUploadWidget upload handlers -/

/-- Errors a single upload call can end in.  `invalid_request` is the
widget's `InvalidRequestException` (caught by `handle_ajax` and turned
into a 400 response); `attribute_error` and `value_error` are the untyped
Python exceptions (`AttributeError` from `None.group(...)`,
`ValueError` from `int("*")`) that escape that handler. -/
inductive UploadError
  | invalid_request (msg : String)
  | attribute_error
  | value_error
  deriving DecidableEq, Repr

/-- The dict a handler returns: `{"filename": ..., "uuid": ...}`. -/
structure UploadResponse where
  filename : String
  uuid : Nat
  deriving DecidableEq, Repr

/-- Groups `(start digits, end digits, length group)` of a successful
`re.match` of `bytes (\d{1,32})-(\d{1,32})/(\*|\d{1,32})`. -/
def digit_span (cs : List Char) : List Char × List Char :=
  (cs.takeWhile Char.isDigit, cs.dropWhile Char.isDigit)

/-- Embeds `int` on a digit string. -/
def nat_of_digits (cs : List Char) : Nat :=
  cs.foldl (fun n c => n * 10 + (c.toNat - (Char.toNat '0'))) 0

/-- Python `int(s)` on the strings the length group can hold (`"*"` or
digits): `none` models the ValueError raised on `"*"`. -/
def py_int (cs : List Char) : Option Nat :=
  if cs ≠ [] ∧ cs.all Char.isDigit then some (nat_of_digits cs) else none

/-- Embeds `re.match` (prefix match, so trailing text is ignored) of the
Content-Range pattern.  `{1,32}` with a mandatory next character that can
never be a digit reduces to "maximal digit run of length 1..32"; the final
`{1,32}` group, with nothing after it in the pattern, greedily keeps the
first 32 digits of the run.  The alternation tries `*` first. -/
def match_content_range (s : String) : Option (List Char × List Char × List Char) :=
  let cs := s.toList
  if cs.take 6 = (r"bytes ").toList then
    let rest0 := cs.drop 6
    let p1 := digit_span rest0
    if 1 ≤ p1.1.length ∧ p1.1.length ≤ 32 then
      match p1.2 with
      | '-' :: rest1 =>
        let p2 := digit_span rest1
        if 1 ≤ p2.1.length ∧ p2.1.length ≤ 32 then
          match p2.2 with
          | '/' :: rest2 =>
            match rest2 with
            | '*' :: _ => some (p1.1, p2.1, ['*'])
            | _ =>
              let p3 := digit_span rest2
              if 1 ≤ p3.1.length then some (p1.1, p2.1, p3.1.take 32) else none
          | _ => none
        else none
      | _ => none
    else none
  else none

/-- Embeds `StagedFile.objects.filter(csrf=..., client_id=...)`: the chunks of
one (tenant scope, upload group). -/
def group_chunks (store : List StagedFile) (csrf cid : String) : List StagedFile :=
  store.filter (fun c => c.csrf == csrf && c.client_id == some cid)

/-- The closed-interval intersection test of the overlap query
(`start_byte__lte=end_byte, end_byte__gte=start_byte`). -/
def overlaps_new (sb eb : Nat) (c : StagedFile) : Bool :=
  decide (c.start_byte ≤ eb) && decide (sb ≤ c.end_byte)

/-- The row `_handle_chunked` / `_handle_complete` create. -/
def create_chunk (csrf : String) (cid : Option String) (fname : String) (fid : Nat)
    (payload : List Nat) (sb eb : Nat) (total : Option Nat) : StagedFile :=
  { csrf := csrf
    client_id := cid
    client_filename := fname
    file_id := fid
    file := payload
    start_byte := sb
    end_byte := eb
    total_size := total }

/-- Embeds `AjaxUploadWidget._handle_complete` for one uploaded file: store the
whole payload as a single chunk.  (For an empty payload Python would store
`end_byte = -1`; the theorems below only invoke this with a non-empty
payload, where `Nat` subtraction agrees.) -/
def handle_complete (store : List StagedFile) (csrf : String) (fresh_id : Nat)
    (fname : String) (payload : List Nat) :
    (Except UploadError UploadResponse) × List StagedFile :=
  (.ok { filename := fname, uuid := fresh_id },
   store ++ [create_chunk csrf none fname fresh_id payload 0 (payload.length - 1)
               (some payload.length)])

/-- Embeds `AjaxUploadWidget._handle_chunked` for one uploaded file.  The store
is returned unchanged on every error path (the source's only store write
is the final `objects.create`). -/
def handle_chunked (store : List StagedFile) (csrf : String) (fresh_id : Nat)
    (range_header : Option String) (upload_id : Option String)
    (fname : String) (payload : List Nat) :
    (Except UploadError UploadResponse) × List StagedFile :=
  match range_header with
  | none => (.error (.invalid_request (r"Client did not supply Content-Range")), store)
  | some hdr =>
    if hdr.length = 0 then
      (.error (.invalid_request (r"Client did not supply Content-Range")), store)
    else
      match match_content_range hdr with
      | none =>
        -- Source slip: line 133 re-tests `range_header` instead of
        -- `range_match`, so a present but non-matching header falls
        -- through to `range_match.group(...)` on `None` and raises
        -- AttributeError, not InvalidRequestException.
        (.error .attribute_error, store)
      | some (g1, g2, g3) =>
        let start_byte := nat_of_digits g1
        let end_byte := nat_of_digits g2
        -- The regex makes the length group mandatory, so the source's
        -- `range_match.group("length") is None` branch is dead and
        -- `total_size = int(group)` always runs — raising ValueError
        -- when the group is `*`.
        match py_int g3 with
        | none => (.error .value_error, store)
        | some t =>
          let total_size : Option Nat := some t
          if end_byte < start_byte then
            (.error (.invalid_request (r"Supplied invalid Content-Range")), store)
          else if t ≤ end_byte then
            -- `(total_size is not None) and (end_byte >= total_size)`;
            -- `total_size` is always `some t` here.
            (.error (.invalid_request (r"End byte exceeds total file size")), store)
          else if end_byte - start_byte + 1 ≠ payload.length then
            (.error (.invalid_request (r"Invalid start-end byte range")), store)
          else
            match upload_id with
            | none => (.error (.invalid_request (r"Client did not supply a X-Upload-ID")), store)
            | some cid =>
              if cid.length = 0 then
                (.error (.invalid_request (r"Client did not supply a X-Upload-ID")), store)
              else if 128 < cid.length then
                (.error (.invalid_request (r"X-Upload-ID is too long")), store)
              else
                match group_chunks store csrf cid with
                | [] =>
                  (.ok { filename := fname, uuid := fresh_id },
                   store ++ [create_chunk csrf (some cid) fname fresh_id payload
                               start_byte end_byte total_size])
                | c0 :: rest =>
                  if (c0 :: rest).any (overlaps_new start_byte end_byte) then
                    (.error (.invalid_request (r"Overlapping chunks")), store)
                  else if (c0 :: rest).any (fun c => c.client_filename ≠ fname) then
                    (.error (.invalid_request (r"Chunks have inconsistent filenames")), store)
                  else if (c0 :: rest).any (fun c =>
                      match c.total_size with
                      | none => false
                      | some u => decide (u ≠ t)) then
                    -- `if total_size is not None: ...` — always taken,
                    -- `total_size = some t`.
                    (.error (.invalid_request (r"Inconsistent total size")), store)
                  else
                    (.ok { filename := fname, uuid := c0.file_id },
                     store ++ [create_chunk csrf (some cid) fname c0.file_id payload
                                 start_byte end_byte total_size])

/-! ## Chunk-layout predicates used by the theorems -/

/-- The sorted chunk list forms one contiguous run from `pos`: each chunk
starts exactly where the previous one ended (+1), with `start ≤ end`. -/
def ContigB : List StagedFile → Nat → Bool
  | [], _ => true
  | c :: rest, pos =>
    (c.start_byte == pos && decide (pos ≤ c.end_byte)) && ContigB rest (c.end_byte + 1)

/-- The sorted chunk list is a contiguous cover of `content` from `pos`:
contiguous as in `ContigB`, each chunk's payload is the matching slice of
`content`, and the run ends exactly at `content.length`. -/
def IsCoverB : List StagedFile → Nat → List Nat → Bool
  | [], pos, content => content.length == pos
  | c :: rest, pos, content =>
    (c.start_byte == pos && decide (pos ≤ c.end_byte) &&
      c.file == (content.drop pos).take (c.end_byte + 1 - pos)) &&
    IsCoverB rest (c.end_byte + 1) content

/-- One past the last byte of a contiguous run that starts at `pos`. -/
def end_from : List StagedFile → Nat → Nat
  | [], pos => pos
  | c :: rest, _ => end_from rest (c.end_byte + 1)

/-- The `start_byte` of the chunk at position `j` of the sorted list. -/
def nth_start (cs : List StagedFile) (j : Nat) : Nat :=
  match cs.get? j with
  | some c => c.start_byte
  | none => 0

/-- The `end_byte` of the chunk at position `j` of the sorted list. -/
def nth_end (cs : List StagedFile) (j : Nat) : Nat :=
  match cs.get? j with
  | some c => c.end_byte
  | none => 0

/-- The endpoint list the `__init__` loop builds for a contiguous chunk
run: `(end_byte + 1, position)` for each chunk. -/
def chunk_eps : List StagedFile → Nat → List (Nat × Nat)
  | [], _ => []
  | c :: rest, j => (c.end_byte + 1, j) :: chunk_eps rest (j + 1)

/-! ## Contiguity and cover facts -/

/-- The `file` of the chunk at position `j` of the sorted list. -/
def nth_file (cs : List StagedFile) (j : Nat) : List Nat :=
  match cs.get? j with
  | some c => c.file
  | none => []

def rt_chunk_a : StagedFile :=
  create_chunk (r"t") (some (r"u")) (r"f") 1 [10, 20] 0 1 (some 3)

def rt_chunk_b : StagedFile :=
  create_chunk (r"t") (some (r"u")) (r"f") 1 [30] 2 2 (some 3)

def c1w_a : StagedFile :=
  create_chunk (r"t") (some (r"u")) (r"f") 5 [10, 20] 0 1 (some 3)

def c1w_b : StagedFile :=
  create_chunk (r"t") (some (r"u")) (r"f") 5 [30] 2 2 none

def c1_bad : StagedFile :=
  create_chunk (r"t") (some (r"u")) (r"f") 9 [7, 7, 7, 7, 7] 0 4 (some 10)

def c2_chunk : StagedFile :=
  create_chunk (r"t") (some (r"u")) (r"f") 3 [7] 0 0 none

def c2w_a : StagedFile :=
  create_chunk (r"t") (some (r"u")) (r"f") 4 [1, 2] 0 1 none

def c2w_b : StagedFile :=
  create_chunk (r"t") (some (r"u")) (r"f") 4 [3] 2 2 none

/-! ## Reader bugs observable on concrete complete files -/

def c4_chunk : StagedFile :=
  create_chunk (r"t") (some (r"u")) (r"f") 1 [0, 1, 2, 3, 4, 5, 6, 7, 8, 9] 0 9 (some 10)

def c4_reader : OpenedStagedAjaxFile := open_staged [c4_chunk]

def c4_after_read : OpenedStagedAjaxFile := (file_read c4_reader 5).2

def c4_after_seek : OpenedStagedAjaxFile := (file_seek c4_after_read 0 0).2

def c7_chunk : StagedFile :=
  create_chunk (r"t") (some (r"u")) (r"f") 1 [42] 0 0 (some 1)

def c5_existing : StagedFile :=
  create_chunk (r"t") (some (r"u")) (r"f") 7 [1, 2, 3] 0 2 (some 10)

def c9_stored : StagedFile :=
  create_chunk (r"t") none (r"f") 7 [5, 6, 7] 0 2 (some 3)

def c10_new : StagedFile :=
  create_chunk (r"t") (some (r"u")) (r"f") 3 [1, 2, 3] 0 2 (some 10)

/-! ## Generic interval maps built from length/label pairs (C8) -/

/-- Build an interval map by `append_interval`-ing a list of
(length, label) pairs in order, as client code of `IntervalMap` does. -/
def build_intervals : List (Nat × α) → List (Nat × α) → List (Nat × α)
  | [], m => m
  | (len, lab) :: rest, m => build_intervals rest (append_interval m len lab)

/-- Total length of a list of (length, label) pairs. -/
def lens_sum (lens : List (Nat × α)) : Nat := (lens.map (fun p => p.1)).sum

/-- First byte of interval `j`: the sum of the first `j` lengths. -/
def sum_take (lens : List (Nat × α)) (j : Nat) : Nat := lens_sum (lens.take j)

/-- The cumulative endpoint list the build produces. -/
def cumul : Nat → List (Nat × α) → List (Nat × α)
  | _, [] => []
  | acc, (len, lab) :: rest => (acc + len, lab) :: cumul (acc + len) rest

/-! ## Theorems -/

/-! ## IntervalMap lemmas -/

theorem map_len_cons (a : Nat × α) (t : List (Nat × α)) :
    map_len (a :: t) = if t.isEmpty then a.1 else map_len t := by
  cases t with
  | nil => rfl
  | cons b t' => simp [map_len, List.getLast?_cons_cons, List.isEmpty]

theorem map_len_concat (m : List (Nat × α)) (x : Nat × α) :
    map_len (m ++ [x]) = x.1 := by
  simp [map_len, List.getLast?_concat]

theorem sorted_key_last (m : List (Nat × α))
    (h : List.Sorted (fun a b : Nat × α => a.1 ≤ b.1) m) :
    ∀ p ∈ m, p.1 ≤ map_len m := by
  induction m with
  | nil => intro p hp; cases hp
  | cons a t ih =>
    rw [List.sorted_cons] at h
    intro p hp
    rw [map_len_cons]
    rw [List.mem_cons] at hp
    rcases hp with rfl | hpt
    · cases t with
      | nil => simp
      | cons b t' =>
        rw [if_neg (by simp)]
        have hb : p.1 ≤ b.1 := h.1 b (by simp)
        have := ih h.2 b (by simp)
        omega
    · have ht : ¬ t.isEmpty = true := by
        cases t with
        | nil => cases hpt
        | cons b t' => simp
      have := ih h.2 p hpt
      rw [if_neg ht]
      exact this

theorem append_interval_of_sorted (m : List (Nat × α)) (len : Nat) (lab : α)
    (h : List.Sorted (fun a b : Nat × α => a.1 ≤ b.1) m) :
    append_interval m len lab = m ++ [(map_len m + len, lab)] ∧
    List.Sorted (fun a b : Nat × α => a.1 ≤ b.1) (m ++ [(map_len m + len, lab)]) := by
  have hs : List.Sorted (fun a b : Nat × α => a.1 ≤ b.1) (m ++ [(map_len m + len, lab)]) := by
    rw [List.Sorted, List.pairwise_append]
    refine ⟨h, List.pairwise_singleton _ _, ?_⟩
    intro p hp q hq
    rw [List.mem_singleton] at hq
    subst hq
    have := sorted_key_last m h p hp
    simp only
    omega
  exact ⟨List.Sorted.insertionSort_eq hs, hs⟩

theorem map_len_eq_ep_last (m : List (Nat × α)) (h : m ≠ []) :
    map_len m = ep_at m (m.length - 1) := by
  unfold map_len ep_at
  rw [List.getLast?_eq_get?]

/-- Correctness of the nested-interval search: under the stated bracketing
invariants it returns the least index whose endpoint exceeds `i`. -/
theorem interval_find_go_spec (m : List (Nat × α)) (i : Nat)
    (mono : ∀ a b, a ≤ b → b < m.length → ep_at m a ≤ ep_at m b) :
    ∀ fuel start e, e - start ≤ fuel → start ≤ e → e ≤ m.length →
      (∀ k, k < start → ep_at m k ≤ i) →
      (∀ k, e ≤ k → k < m.length → i < ep_at m k) →
      start ≤ interval_find_go m i fuel start e ∧
      interval_find_go m i fuel start e ≤ e ∧
      (∀ k, k < interval_find_go m i fuel start e → ep_at m k ≤ i) ∧
      (∀ k, interval_find_go m i fuel start e ≤ k → k < m.length → i < ep_at m k) := by
  intro fuel
  induction fuel with
  | zero =>
    intro start e h1 h2 h3 h4 h5
    have he : e = start := by omega
    subst he
    simp only [interval_find_go]
    exact ⟨Nat.le_refl _, Nat.le_refl _, h4, h5⟩
  | succ n ih =>
    intro start e h1 h2 h3 h4 h5
    simp only [interval_find_go]
    by_cases hse : e ≤ start
    · rw [if_pos hse]
      have he : e = start := by omega
      subst he
      exact ⟨Nat.le_refl _, Nat.le_refl _, h4, h5⟩
    · rw [if_neg hse]
      have hlt : start < e := by omega
      have hmid1 : start ≤ (start + e) / 2 := by omega
      have hmid2 : (start + e) / 2 < e := by omega
      by_cases hcmp : i < ep_at m ((start + e) / 2)
      · rw [if_pos hcmp]
        have h5' : ∀ k, (start + e) / 2 ≤ k → k < m.length → i < ep_at m k := by
          intro k hk hk2
          exact Nat.lt_of_lt_of_le hcmp (mono _ _ hk hk2)
        have := ih start ((start + e) / 2) (by omega) hmid1 (by omega) h4 h5'
        exact ⟨this.1, by omega, this.2.2.1, this.2.2.2⟩
      · rw [if_neg hcmp]
        have hle : ep_at m ((start + e) / 2) ≤ i := by omega
        have h4' : ∀ k, k < (start + e) / 2 + 1 → ep_at m k ≤ i := by
          intro k hk
          by_cases hks : k < start
          · exact h4 k hks
          · exact Nat.le_trans (mono k _ (by omega) (by omega)) hle
        have := ih ((start + e) / 2 + 1) e (by omega) (by omega) h3 h4' h5
        exact ⟨by omega, this.2.1, this.2.2.1, this.2.2.2⟩

/-- The search `find_endpoint_index` finds exactly the index `r` bracketing `i`. -/
theorem find_endpoint_index_eq (m : List (Nat × α))
    (mono : ∀ a b, a ≤ b → b < m.length → ep_at m a ≤ ep_at m b)
    (i r : Nat) (hr : r < m.length)
    (hlow : ∀ k, k < r → ep_at m k ≤ i) (hhigh : i < ep_at m r) :
    find_endpoint_index m i = some r := by
  have hne : m ≠ [] := by
    intro h; subst h; simp at hr
  have hmap : i < map_len m := by
    rw [map_len_eq_ep_last m hne]
    exact Nat.lt_of_lt_of_le hhigh (mono r (m.length - 1) (by omega) (by omega))
  unfold find_endpoint_index
  rw [if_neg (by omega)]
  have hspec := interval_find_go_spec m i mono m.length 0 m.length (by omega) (by omega)
    (Nat.le_refl _) (by intro k hk; omega) (by intro k hk hk2; omega)
  congr 1
  set r' := interval_find_go m i m.length 0 m.length with hr'
  by_cases hlt : r' < r
  · exact absurd (hspec.2.2.2 r' (Nat.le_refl _) (by omega)) (by have := hlow r' hlt; omega)
  · by_cases hgt : r < r'
    · exact absurd (hspec.2.2.1 r hgt) (by omega)
    · omega

theorem nth_start_zero (c : StagedFile) (rest : List StagedFile) :
    nth_start (c :: rest) 0 = c.start_byte := rfl

theorem nth_start_succ (c : StagedFile) (rest : List StagedFile) (k : Nat) :
    nth_start (c :: rest) (k + 1) = nth_start rest k := rfl

theorem nth_end_zero (c : StagedFile) (rest : List StagedFile) :
    nth_end (c :: rest) 0 = c.end_byte := rfl

theorem nth_end_succ (c : StagedFile) (rest : List StagedFile) (k : Nat) :
    nth_end (c :: rest) (k + 1) = nth_end rest k := rfl

theorem nth_file_zero (c : StagedFile) (rest : List StagedFile) :
    nth_file (c :: rest) 0 = c.file := rfl

theorem nth_file_succ (c : StagedFile) (rest : List StagedFile) (k : Nat) :
    nth_file (c :: rest) (k + 1) = nth_file rest k := rfl

theorem contig_cons_iff (c : StagedFile) (rest : List StagedFile) (pos : Nat) :
    ContigB (c :: rest) pos = true ↔
      c.start_byte = pos ∧ pos ≤ c.end_byte ∧ ContigB rest (c.end_byte + 1) = true := by
  simp [ContigB, Bool.and_eq_true, and_assoc]

theorem cover_cons_iff (c : StagedFile) (rest : List StagedFile) (pos : Nat)
    (content : List Nat) :
    IsCoverB (c :: rest) pos content = true ↔
      c.start_byte = pos ∧ pos ≤ c.end_byte ∧
      c.file = (content.drop pos).take (c.end_byte + 1 - pos) ∧
      IsCoverB rest (c.end_byte + 1) content = true := by
  simp [IsCoverB, Bool.and_eq_true, and_assoc]

theorem cover_contig (cs : List StagedFile) :
    ∀ pos content, IsCoverB cs pos content = true → ContigB cs pos = true := by
  induction cs with
  | nil => intro pos content _; rfl
  | cons c rest ih =>
    intro pos content h
    rw [cover_cons_iff] at h
    rw [contig_cons_iff]
    exact ⟨h.1, h.2.1, ih _ _ h.2.2.2⟩

theorem contig_start (cs : List StagedFile) :
    ∀ pos k, ContigB cs pos = true → k < cs.length →
      nth_start cs k ≤ nth_end cs k := by
  induction cs with
  | nil => intro pos k _ hk; simp at hk
  | cons c rest ih =>
    intro pos k h hk
    rw [contig_cons_iff] at h
    cases k with
    | zero => rw [nth_start_zero, nth_end_zero]; omega
    | succ k' =>
      rw [nth_start_succ, nth_end_succ]
      exact ih _ k' h.2.2 (by simpa using hk)

theorem contig_head_start (c : StagedFile) (rest : List StagedFile) (pos : Nat)
    (h : ContigB (c :: rest) pos = true) : c.start_byte = pos :=
  ((contig_cons_iff c rest pos).1 h).1

theorem contig_step (cs : List StagedFile) :
    ∀ pos k, ContigB cs pos = true → k + 1 < cs.length →
      nth_start cs (k + 1) = nth_end cs k + 1 := by
  induction cs with
  | nil => intro pos k _ hk; simp at hk
  | cons c rest ih =>
    intro pos k h hk
    rw [contig_cons_iff] at h
    cases k with
    | zero =>
      rw [nth_start_succ, nth_end_zero]
      cases rest with
      | nil => simp at hk
      | cons d rest' =>
        rw [nth_start_zero]
        exact contig_head_start d rest' _ h.2.2
    | succ k' =>
      rw [nth_start_succ, nth_end_succ]
      exact ih _ k' h.2.2 (by simpa using hk)

theorem contig_start_mono (cs : List StagedFile) (pos : Nat)
    (h : ContigB cs pos = true) :
    ∀ d t, t + d < cs.length → nth_start cs t ≤ nth_start cs (t + d) := by
  intro d
  induction d with
  | zero => intro t _; exact Nat.le_refl _
  | succ d' ih =>
    intro t hlt
    have h1 : nth_start cs t ≤ nth_start cs (t + d') := ih t (by omega)
    have h2 : nth_start cs (t + d') ≤ nth_end cs (t + d') :=
      contig_start cs pos (t + d') h (by omega)
    have h3 : nth_start cs (t + d' + 1) = nth_end cs (t + d') + 1 :=
      contig_step cs pos (t + d') h (by omega)
    have : t + (d' + 1) = t + d' + 1 := by omega
    rw [this, h3]
    omega

theorem contig_end_mono (cs : List StagedFile) (pos : Nat)
    (h : ContigB cs pos = true) :
    ∀ d t, t + d < cs.length → nth_end cs t ≤ nth_end cs (t + d) := by
  intro d
  induction d with
  | zero => intro t _; exact Nat.le_refl _
  | succ d' ih =>
    intro t hlt
    have h1 : nth_end cs t ≤ nth_end cs (t + d') := ih t (by omega)
    have h2 : nth_start cs (t + d' + 1) ≤ nth_end cs (t + d' + 1) :=
      contig_start cs pos (t + d' + 1) h (by omega)
    have h3 : nth_start cs (t + d' + 1) = nth_end cs (t + d') + 1 :=
      contig_step cs pos (t + d') h (by omega)
    have : t + (d' + 1) = t + d' + 1 := by omega
    rw [this]
    omega

theorem contig_sep (cs : List StagedFile) (pos : Nat)
    (h : ContigB cs pos = true) (t k : Nat) (htk : t < k) (hk : k < cs.length) :
    nth_end cs t + 1 ≤ nth_start cs k := by
  have h1 : nth_start cs (t + 1) = nth_end cs t + 1 := contig_step cs pos t h (by omega)
  have h2 : nth_start cs (t + 1) ≤ nth_start cs (t + 1 + (k - (t + 1))) :=
    contig_start_mono cs pos h (k - (t + 1)) (t + 1) (by omega)
  have : t + 1 + (k - (t + 1)) = k := by omega
  rw [this] at h2
  omega

theorem contig_end_from (cs : List StagedFile) :
    ∀ pos, ContigB cs pos = true → cs ≠ [] →
      end_from cs pos = nth_end cs (cs.length - 1) + 1 := by
  induction cs with
  | nil => intro pos _ hne; exact absurd rfl hne
  | cons c rest ih =>
    intro pos h _
    rw [contig_cons_iff] at h
    cases rest with
    | nil => rfl
    | cons d rest' =>
      show end_from (d :: rest') (c.end_byte + 1) = _
      rw [ih _ h.2.2 (by simp)]
      have hlen : (c :: d :: rest').length - 1 = ((d :: rest').length - 1) + 1 := by
        simp
      rw [hlen, nth_end_succ]

theorem contig_end_le_end_from (cs : List StagedFile) (pos : Nat)
    (h : ContigB cs pos = true) (k : Nat) (hk : k < cs.length) :
    nth_end cs k + 1 ≤ end_from cs pos := by
  have hne : cs ≠ [] := by intro he; rw [he] at hk; simp at hk
  rw [contig_end_from cs pos h hne]
  have := contig_end_mono cs pos h (cs.length - 1 - k) k (by omega)
  have heq : k + (cs.length - 1 - k) = cs.length - 1 := by omega
  rw [heq] at this
  omega

theorem contig_pos_le_start (cs : List StagedFile) (pos : Nat)
    (h : ContigB cs pos = true) (k : Nat) (hk : k < cs.length) :
    pos ≤ nth_start cs k := by
  cases cs with
  | nil => simp at hk
  | cons c rest =>
    have h0 : nth_start (c :: rest) 0 = pos := by
      rw [nth_start_zero]; exact contig_head_start c rest pos h
    have := contig_start_mono (c :: rest) pos h k 0 (by omega)
    simpa [h0] using this

theorem cover_end_from (cs : List StagedFile) :
    ∀ pos content, IsCoverB cs pos content = true → end_from cs pos = content.length := by
  induction cs with
  | nil =>
    intro pos content h
    simp only [IsCoverB, beq_iff_eq] at h
    simpa [end_from] using h.symm
  | cons c rest ih =>
    intro pos content h
    rw [cover_cons_iff] at h
    exact ih _ _ h.2.2.2

theorem cover_file (cs : List StagedFile) :
    ∀ pos content k, IsCoverB cs pos content = true → k < cs.length →
      nth_file cs k = (content.drop (nth_start cs k)).take (nth_end cs k + 1 - nth_start cs k) := by
  induction cs with
  | nil => intro pos content k _ hk; simp at hk
  | cons c rest ih =>
    intro pos content k h hk
    rw [cover_cons_iff] at h
    cases k with
    | zero =>
      rw [nth_file_zero, nth_start_zero, nth_end_zero, h.1]
      exact h.2.2.1
    | succ k' =>
      rw [nth_file_succ, nth_start_succ, nth_end_succ]
      exact ih _ _ k' h.2.2.2 (by simpa using hk)

theorem contig_owner (cs : List StagedFile) :
    ∀ pos fp, ContigB cs pos = true → pos ≤ fp → fp < end_from cs pos →
      ∃ k, k < cs.length ∧ nth_start cs k ≤ fp ∧ fp ≤ nth_end cs k := by
  induction cs with
  | nil =>
    intro pos fp _ hle hlt
    simp only [end_from] at hlt
    omega
  | cons c rest ih =>
    intro pos fp h hle hlt
    rw [contig_cons_iff] at h
    by_cases hend : fp ≤ c.end_byte
    · exact ⟨0, by simp, by rw [nth_start_zero]; omega, by rw [nth_end_zero]; omega⟩
    · have hfp : c.end_byte + 1 ≤ fp := by omega
      have hlt' : fp < end_from rest (c.end_byte + 1) := hlt
      obtain ⟨k, hk, hk1, hk2⟩ := ih (c.end_byte + 1) fp h.2.2 hfp hlt'
      exact ⟨k + 1, by simpa using hk, by rwa [nth_start_succ], by rwa [nth_end_succ]⟩

/-! ## chunk_eps facts -/

theorem chunk_eps_length (cs : List StagedFile) : ∀ j, (chunk_eps cs j).length = cs.length := by
  induction cs with
  | nil => intro j; rfl
  | cons c rest ih => intro j; simp [chunk_eps, ih]

theorem chunk_eps_get? (cs : List StagedFile) :
    ∀ j k, k < cs.length → (chunk_eps cs j).get? k = some (nth_end cs k + 1, j + k) := by
  induction cs with
  | nil => intro j k hk; simp at hk
  | cons c rest ih =>
    intro j k hk
    cases k with
    | zero => simp [chunk_eps, nth_end_zero]
    | succ k' =>
      show (chunk_eps rest (j + 1)).get? k' = _
      rw [ih (j + 1) k' (by simpa using hk), nth_end_succ]
      congr 2
      omega

theorem ep_at_chunk_eps (cs : List StagedFile) (j k : Nat) (hk : k < cs.length) :
    ep_at (chunk_eps cs j) k = nth_end cs k + 1 := by
  unfold ep_at
  rw [chunk_eps_get? cs j k hk]

theorem lab_at_chunk_eps (cs : List StagedFile) (j k : Nat) (hk : k < cs.length) :
    lab_at (chunk_eps cs j) k = some (j + k) := by
  unfold lab_at
  rw [chunk_eps_get? cs j k hk]
  rfl

theorem eps_mono (cs : List StagedFile) (pos j : Nat) (h : ContigB cs pos = true) :
    ∀ a b, a ≤ b → b < (chunk_eps cs j).length →
      ep_at (chunk_eps cs j) a ≤ ep_at (chunk_eps cs j) b := by
  intro a b hab hb
  rw [chunk_eps_length] at hb
  rw [ep_at_chunk_eps cs j a (by omega), ep_at_chunk_eps cs j b hb]
  have := contig_end_mono cs pos h (b - a) a (by omega)
  have heq : a + (b - a) = b := by omega
  rw [heq] at this
  omega

theorem map_len_chunk_eps (cs : List StagedFile) (pos j : Nat)
    (h : ContigB cs pos = true) (hne : cs ≠ []) :
    map_len (chunk_eps cs j) = end_from cs pos := by
  have hne' : chunk_eps cs j ≠ [] := by
    intro he
    have := chunk_eps_length cs j
    rw [he] at this
    cases cs with
    | nil => exact hne rfl
    | cons c rest => simp at this
  rw [map_len_eq_ep_last _ hne', chunk_eps_length]
  rw [ep_at_chunk_eps cs j (cs.length - 1)
    (by cases cs with | nil => exact absurd rfl hne | cons c rest => simp)]
  rw [contig_end_from cs pos h hne]

/-- Lookup resolves any offset inside chunk `k` of a contiguous run to
label `k` — including the chunk's first byte. -/
theorem interval_get_cover (cs : List StagedFile) (pos : Nat)
    (h : ContigB cs pos = true) (k fp : Nat) (hk : k < cs.length)
    (h1 : nth_start cs k ≤ fp) (h2 : fp ≤ nth_end cs k) :
    interval_get (chunk_eps cs 0) fp = some k := by
  have hfind : find_endpoint_index (chunk_eps cs 0) fp = some k := by
    apply find_endpoint_index_eq (chunk_eps cs 0) (eps_mono cs pos 0 h) fp k
      (by rw [chunk_eps_length]; exact hk)
    · intro t ht
      rw [ep_at_chunk_eps cs 0 t (by omega)]
      have := contig_sep cs pos h t k ht hk
      omega
    · rw [ep_at_chunk_eps cs 0 k hk]
      omega
  unfold interval_get
  rw [hfind]
  show lab_at (chunk_eps cs 0) k = some k
  rw [lab_at_chunk_eps cs 0 k hk, Nat.zero_add]

/-! ## The reader's chunk map on a contiguous run -/

theorem build_chunk_map_eq (cs : List StagedFile) :
    ∀ pos j (m : List (Nat × Nat)), ContigB cs pos = true →
      List.Sorted (fun a b : Nat × Nat => a.1 ≤ b.1) m →
      map_len m = pos →
      build_chunk_map (List.enumFrom j cs) m = m ++ chunk_eps cs j := by
  induction cs with
  | nil => intro pos j m _ _ _; simp [List.enumFrom, build_chunk_map, chunk_eps]
  | cons c rest ih =>
    intro pos j m hc hs hm
    rw [contig_cons_iff] at hc
    rw [List.enumFrom_cons]
    show build_chunk_map (List.enumFrom (j + 1) rest)
      (append_interval m (c.end_byte - c.start_byte + 1) j) = _
    have hai := append_interval_of_sorted m (c.end_byte - c.start_byte + 1) j hs
    have hkey : map_len m + (c.end_byte - c.start_byte + 1) = c.end_byte + 1 := by
      have h1 := hc.1
      have h2 := hc.2.1
      omega
    rw [hai.1]
    have hpr : (map_len m + (c.end_byte - c.start_byte + 1), j) = (c.end_byte + 1, j) := by
      rw [hkey]
    rw [hpr] at hai ⊢
    rw [ih (c.end_byte + 1) (j + 1) (m ++ [(c.end_byte + 1, j)]) hc.2.2 hai.2
      (map_len_concat m _)]
    rw [List.append_assoc, List.singleton_append]
    rfl

theorem open_staged_eq (arrival : List StagedFile) :
    open_staged arrival =
      { chunks := sort_by_start arrival
        chunk_map := build_chunk_map (sort_by_start arrival).enum []
        file_pointer := 0
        current_chunk := none
        current_pos := 0
        is_closed := false } := rfl

theorem open_staged_chunk_map (arrival cs : List StagedFile)
    (hsort : sort_by_start arrival = cs) (hc : ContigB cs 0 = true) :
    (open_staged arrival).chunk_map = chunk_eps cs 0 := by
  rw [open_staged_eq]
  show build_chunk_map (sort_by_start arrival).enum [] = _
  rw [hsort, List.enum_eq_enumFrom]
  rw [build_chunk_map_eq cs 0 0 [] hc List.sorted_nil rfl]
  rfl

/-! ## Correctness of the read loop on covers -/

theorem read_go_cover (cs : List StagedFile) (content : List Nat)
    (hcov : IsCoverB cs 0 content = true) :
    ∀ fuel fp cur cpos count (acc : List Nat),
      content.length - fp + 1 ≤ fuel →
      (∀ j, cur = some j → interval_get (chunk_eps cs 0) fp = some j →
        cpos = fp - nth_start cs j) →
      (read_go count fuel
        { chunks := cs, chunk_map := chunk_eps cs 0, file_pointer := fp,
          current_chunk := cur, current_pos := cpos, is_closed := false } acc).1
        = acc ++ (content.drop fp).take (min (count - acc.length) (content.length - fp)) := by
  have hcont : ContigB cs 0 = true := cover_contig cs 0 content hcov
  have hend_from : end_from cs 0 = content.length := cover_end_from cs 0 content hcov
  have hmaplen : map_len (chunk_eps cs 0) = content.length := by
    cases cs with
    | nil =>
      have h0 : content.length = 0 := by
        simpa [IsCoverB] using hcov
      simp [chunk_eps, map_len, h0]
    | cons c rest =>
      rw [map_len_chunk_eps (c :: rest) 0 0 hcont (by simp), hend_from]
  intro fuel
  induction fuel with
  | zero => intro fp cur cpos count acc h1 _; omega
  | succ n ih =>
    intro fp cur cpos count acc h1 hsync
    by_cases hac : acc.length < count
    · by_cases hfp : map_len (chunk_eps cs 0) ≤ fp
      · have hz : content.length - fp = 0 := by rw [hmaplen] at hfp; omega
        simp [read_go, if_pos hac, if_pos hfp, hz]
      · have hfp2 : fp < content.length := by rw [hmaplen] at hfp; omega
        obtain ⟨k, hk, hk1, hk2⟩ :=
          contig_owner cs 0 fp hcont (Nat.zero_le fp) (by rw [hend_from]; exact hfp2)
        have hget : interval_get (chunk_eps cs 0) fp = some k :=
          interval_get_cover cs 0 hcont k fp hk hk1 hk2
        cases hcget : cs.get? k with
        | none => rw [List.get?_eq_none] at hcget; omega
        | some c =>
          have hstart : c.start_byte = nth_start cs k := by
            unfold nth_start; rw [hcget]
          have hendb : c.end_byte = nth_end cs k := by
            unfold nth_end; rw [hcget]
          have hfile : c.file = nth_file cs k := by
            unfold nth_file; rw [hcget]
          have hEbound : nth_end cs k + 1 ≤ content.length := by
            have := contig_end_le_end_from cs 0 hcont k hk
            rwa [hend_from] at this
          have hfile_slice : c.file =
              (content.drop (nth_start cs k)).take (nth_end cs k + 1 - nth_start cs k) := by
            rw [hfile]; exact cover_file cs 0 content k hcov hk
          have hdata_eq : ∀ rs, rs ≤ nth_end cs k + 1 - fp →
              (c.file.drop (fp - nth_start cs k)).take rs = (content.drop fp).take rs := by
            intro rs hrs
            rw [hfile_slice, List.drop_take, List.drop_drop]
            have e1 : nth_start cs k + (fp - nth_start cs k) = fp := by omega
            have e2 : nth_end cs k + 1 - nth_start cs k - (fp - nth_start cs k)
                = nth_end cs k + 1 - fp := by omega
            rw [e1, e2, List.take_take]
            congr 1
            omega
          have hdlen : ∀ rs, rs ≤ nth_end cs k + 1 - fp →
              ((content.drop fp).take rs).length = rs := by
            intro rs hrs
            rw [List.length_take, List.length_drop]
            omega
          have hrs_le : min (count - acc.length) (c.end_byte + 1 - fp)
              ≤ nth_end cs k + 1 - fp := by
            rw [hendb]; omega
          have hrs_pos : 1 ≤ min (count - acc.length) (c.end_byte + 1 - fp) := by
            rw [hendb]
            omega
          have hsync' : ∀ j, (some k : Option Nat) = some j →
              interval_get (chunk_eps cs 0)
                (fp + min (count - acc.length) (c.end_byte + 1 - fp)) = some j →
              fp - nth_start cs k + min (count - acc.length) (c.end_byte + 1 - fp)
                = fp + min (count - acc.length) (c.end_byte + 1 - fp) - nth_start cs j := by
            intro j hj _
            cases hj
            omega
          have hfuel' : content.length
              - (fp + min (count - acc.length) (c.end_byte + 1 - fp)) + 1 ≤ n := by
            omega
          have hfinal : min (count - acc.length) (c.end_byte + 1 - fp)
                + min (count - (acc.length + min (count - acc.length) (c.end_byte + 1 - fp)))
                    (content.length - (fp + min (count - acc.length) (c.end_byte + 1 - fp)))
              = min (count - acc.length) (content.length - fp) := by
            rw [hendb] at hrs_le hrs_pos ⊢
            omega
          by_cases hcur : cur = some k
          · simp only [read_go, hget, hcget]
            rw [if_pos hac, if_neg hfp, if_pos hcur]
            dsimp only
            have hcpos : cpos = fp - nth_start cs k := hsync k hcur hget
            rw [hcpos, hdata_eq _ hrs_le, hdlen _ hrs_le]
            rw [ih (fp + min (count - acc.length) (c.end_byte + 1 - fp)) cur
              (fp - nth_start cs k + min (count - acc.length) (c.end_byte + 1 - fp)) count
              (acc ++ (content.drop fp).take (min (count - acc.length) (c.end_byte + 1 - fp)))
              hfuel' (by rw [hcur]; exact hsync')]
            rw [List.append_assoc]
            congr 1
            rw [List.length_append, hdlen _ hrs_le]
            have hdd : content.drop (fp + min (count - acc.length) (c.end_byte + 1 - fp))
                = (content.drop fp).drop (min (count - acc.length) (c.end_byte + 1 - fp)) := by
              rw [List.drop_drop]
            rw [hdd, ← List.take_add, hfinal]
          · simp only [read_go, hget, hcget]
            rw [if_pos hac, if_neg hfp, if_neg hcur]
            dsimp only
            rw [hstart, hdata_eq _ hrs_le, hdlen _ hrs_le]
            rw [ih (fp + min (count - acc.length) (c.end_byte + 1 - fp)) (some k)
              (fp - nth_start cs k + min (count - acc.length) (c.end_byte + 1 - fp)) count
              (acc ++ (content.drop fp).take (min (count - acc.length) (c.end_byte + 1 - fp)))
              hfuel' hsync']
            rw [List.append_assoc]
            congr 1
            rw [List.length_append, hdlen _ hrs_le]
            have hdd : content.drop (fp + min (count - acc.length) (c.end_byte + 1 - fp))
                = (content.drop fp).drop (min (count - acc.length) (c.end_byte + 1 - fp)) := by
              rw [List.drop_drop]
            rw [hdd, ← List.take_add, hfinal]
    · have hz : count - acc.length = 0 := by omega
      simp [read_go, if_neg hac, hz]

theorem map_len_eps_of_cover (cs : List StagedFile) (content : List Nat)
    (hcov : IsCoverB cs 0 content = true) :
    map_len (chunk_eps cs 0) = content.length := by
  cases cs with
  | nil =>
    have h0 : content.length = 0 := by simpa [IsCoverB] using hcov
    simp [chunk_eps, map_len, h0]
  | cons c rest =>
    rw [map_len_chunk_eps (c :: rest) 0 0 (cover_contig _ 0 content hcov) (by simp)]
    exact cover_end_from _ 0 content hcov

/-- C3 (confirmed): for every non-empty byte string split into
non-overlapping chunks that are contiguous over the whole content,
whatever order the chunks arrived in, opening the staged file and reading
its full size sequentially from position 0 returns exactly the original
byte string. -/
theorem chunked_round_trip (arrival cs : List StagedFile) (content : List Nat)
    (hsort : sort_by_start arrival = cs)
    (hcov : IsCoverB cs 0 content = true)
    (hne : content ≠ []) :
    (file_read (open_staged arrival) content.length).1 = ReadResult.bytes content := by
  have hcont : ContigB cs 0 = true := cover_contig cs 0 content hcov
  have hmaplen : map_len (chunk_eps cs 0) = content.length :=
    map_len_eps_of_cover cs content hcov
  have hN : 0 < content.length := by
    cases content with
    | nil => exact absurd rfl hne
    | cons a l => simp
  have ho : open_staged arrival =
      { chunks := cs, chunk_map := chunk_eps cs 0, file_pointer := 0,
        current_chunk := none, current_pos := 0, is_closed := false } := by
    rw [open_staged_eq, hsort, List.enum_eq_enumFrom,
      build_chunk_map_eq cs 0 0 [] hcont List.sorted_nil rfl]
    rfl
  rw [ho]
  unfold file_read staged_size
  dsimp only
  rw [hmaplen]
  rw [if_neg (by simp), if_neg (by omega)]
  have hr := read_go_cover cs content hcov (content.length + content.length + 1)
    0 none 0 content.length [] (by omega) (by intro j hj; cases hj)
  dsimp only
  rw [hr]
  simp

/-- Witness for C3: two chunks arriving in reverse order reassemble to the
original three bytes. -/
theorem chunked_round_trip_witness :
    (file_read (open_staged [rt_chunk_b, rt_chunk_a]) 3).1 = ReadResult.bytes [10, 20, 30] :=
  chunked_round_trip [rt_chunk_b, rt_chunk_a] [rt_chunk_a, rt_chunk_b] [10, 20, 30]
    (by decide) (by decide) (by decide)

/-! ## The completeness query on contiguous runs -/

theorem option_map_some (f : α → β) (a : α) : (some a).map f = some (f a) := rfl

theorem size_go_complete (cs : List StagedFile) :
    ∀ pos (rem : Option Int), ContigB cs pos = true →
      (rem = none ∨ rem = some ((end_from cs pos : Int) - (pos : Int))) →
      size_go cs pos rem = some (end_from cs pos) := by
  induction cs with
  | nil =>
    intro pos rem _ hrem
    rcases hrem with rfl | rfl
    · rfl
    · show (if ((pos : Int) - (pos : Int)) ≠ 0 then none else some pos) = some pos
      rw [if_neg (by omega)]
  | cons c rest ih =>
    intro pos rem hc hrem
    rw [contig_cons_iff] at hc
    show (if c.start_byte ≠ pos then none else _) = _
    rw [if_neg (by rw [hc.1]; simp)]
    show size_go rest (c.end_byte + 1)
      (rem.map (fun r => r - ((c.end_byte : Int) - (c.start_byte : Int) + 1)))
      = some (end_from (c :: rest) pos)
    have hef : end_from (c :: rest) pos = end_from rest (c.end_byte + 1) := rfl
    rw [hef]
    apply ih (c.end_byte + 1) _ hc.2.2
    rcases hrem with rfl | rfl
    · exact Or.inl rfl
    · right
      rw [option_map_some]
      congr 1
      have hst : c.start_byte = pos := hc.1
      omega

theorem staged_file_size_of_contig (chunks sc : List StagedFile)
    (hne : chunks ≠ []) (hsort : sort_by_start chunks = sc)
    (hcontig : ContigB sc 0 = true)
    (htot : ∀ c ∈ chunks, c.total_size = none ∨ c.total_size = some (end_from sc 0)) :
    staged_file_size chunks = some (some (end_from sc 0)) := by
  have hie : chunks.isEmpty = false := by
    cases chunks with
    | nil => exact absurd rfl hne
    | cons a l => rfl
  unfold staged_file_size
  rw [if_neg (by simp [hie])]
  rw [hsort]
  cases hfind : chunks.find? (fun c => c.total_size.isSome) with
  | none =>
    simp only [hfind]
    rw [size_go_complete sc 0 none hcontig (Or.inl rfl)]
  | some c =>
    have hmem := List.mem_of_find?_eq_some hfind
    have hps := List.find?_some hfind
    have hc : c.total_size = some (end_from sc 0) := by
      rcases htot c hmem with h | h
      · rw [h] at hps; simp at hps
      · exact h
    simp only [hfind]
    rw [hc, option_map_some]
    rw [size_go_complete sc 0 (some ((end_from sc 0 : Int)))
      hcontig (Or.inr (by simp))]

theorem is_complete_of_size (chunks : List StagedFile) (n : Nat)
    (hne : chunks ≠ []) (h : staged_file_size chunks = some (some n)) :
    is_complete chunks = true := by
  have hie : chunks.isEmpty = false := by
    cases chunks with
    | nil => exact absurd rfl hne
    | cons a l => rfl
  unfold is_complete
  rw [if_neg (by simp [hie])]
  simp only [h]

/-- C1 (amended; corrected): for a chunk set whose sorted chunks cover
`[0, N)` contiguously with no overlap, *and whose declared total sizes all
equal `N` when present*, the completeness query reports size `N` and the
file is complete.  (Without the total-size proviso the claim fails — see
the counterexample.) -/
theorem cover_with_agreeing_totals_complete (chunks sc : List StagedFile) (N : Nat)
    (hne : chunks ≠ [])
    (hsort : sort_by_start chunks = sc)
    (hcontig : ContigB sc 0 = true)
    (hN : end_from sc 0 = N)
    (htot : ∀ c ∈ chunks, c.total_size = none ∨ c.total_size = some N) :
    staged_file_size chunks = some (some N) ∧ is_complete chunks = true := by
  subst hN
  have hsize := staged_file_size_of_contig chunks sc hne hsort hcontig htot
  exact ⟨hsize, is_complete_of_size chunks _ hne hsize⟩

/-- Witness for C1 (amended) on a concrete two-chunk cover of `[0, 3)`
whose only declared total size is 3. -/
theorem cover_with_agreeing_totals_complete_witness :
    staged_file_size [c1w_b, c1w_a] = some (some 3) ∧
    is_complete [c1w_b, c1w_a] = true :=
  cover_with_agreeing_totals_complete [c1w_b, c1w_a] [c1w_a, c1w_b] 3
    (by decide) (by decide) (by decide) (by decide) (by decide)

/-- C1 counterexample: a single chunk covers `[0, 5)` contiguously with no
overlap, yet because its declared total size is 10 the completeness query
returns "incomplete" and no size — the claim as stated is false. -/
theorem cover_with_mismatched_total_incomplete :
    sort_by_start [c1_bad] = [c1_bad] ∧
    ContigB [c1_bad] 0 = true ∧
    end_from [c1_bad] 0 = 5 ∧
    staged_file_size [c1_bad] = some none ∧
    is_complete [c1_bad] = false := by
  decide

/-- C2 (amended; corrected): for a logical file none of whose chunks
declares a total size, if the sorted chunks form a single contiguous run
starting at byte 0 then the completeness query *does* evaluate to true,
with size equal to the end of the run — no declared total size is needed
to close the file.  (The claim's "never evaluates to true" is false — see
the counterexample.) -/
theorem no_total_contiguous_complete (chunks sc : List StagedFile)
    (hne : chunks ≠ [])
    (hsort : sort_by_start chunks = sc)
    (hnotot : ∀ c ∈ chunks, c.total_size = none)
    (hcontig : ContigB sc 0 = true) :
    is_complete chunks = true ∧
    staged_file_size chunks = some (some (end_from sc 0)) := by
  have hsize := staged_file_size_of_contig chunks sc hne hsort hcontig
    (fun c hc => Or.inl (hnotot c hc))
  exact ⟨is_complete_of_size chunks _ hne hsize, hsize⟩

/-- C2 counterexample: a logical file whose single chunk declares no total
size is nonetheless judged complete by the completeness query. -/
theorem no_total_contiguous_is_complete_cex :
    c2_chunk.total_size = none ∧
    is_complete [c2_chunk] = true ∧
    staged_file_size [c2_chunk] = some (some 1) := by
  decide

/-- Witness for C2 (amended) on a concrete two-chunk no-total run. -/
theorem no_total_contiguous_complete_witness :
    is_complete [c2w_b, c2w_a] = true ∧
    staged_file_size [c2w_b, c2w_a] = some (some 3) :=
  no_total_contiguous_complete [c2w_b, c2w_a] [c2w_a, c2w_b]
    (by decide) (by decide) (by decide) (by decide)

/-- C4 (code bug): on a complete single-chunk file of bytes 0..9, read(5)
then seek(0, start) then read(5) returns bytes 5..9 instead of bytes 0..4:
`read` never repositions the underlying stream of the chunk that is
already open, so a seek whose target lies inside the open chunk reads from
the stale stream position.  Reading from position 0 and discarding the
first 0 bytes would give bytes 0..4. -/
theorem seek_then_read_uses_stale_position :
    (file_read c4_reader 5).1 = ReadResult.bytes [0, 1, 2, 3, 4] ∧
    (file_seek c4_after_read 0 0).1 = SeekResult.pos 0 ∧
    (file_read c4_after_seek 5).1 = ReadResult.bytes [5, 6, 7, 8, 9] ∧
    ReadResult.bytes [5, 6, 7, 8, 9] ≠
      ReadResult.bytes ((c4_chunk.file.drop 0).take 5) := by
  decide

/-- C7 (code bug): reading a complete 1-byte file to its end and then
calling read(1) again, with the position at end-of-file, does not return
the empty byte string: the source's `read` hits `return EOFError(...)`
(an exception *instance* returned, not raised, where IOBase semantics and
the spec call for `b""`). -/
theorem read_at_eof_returns_eof_error :
    (file_read (open_staged [c7_chunk]) 1).1 = ReadResult.bytes [42] ∧
    (file_read (file_read (open_staged [c7_chunk]) 1).2 1).1 = ReadResult.eof_error := by
  decide

/-- C6 (code bug): a present but non-conforming Content-Range header does
not produce the typed InvalidRequestException: line 133 of the source
re-tests `range_header` instead of `range_match`, so `range_match` is
`None` and `range_match.group("start")` raises AttributeError — an
untyped process-level exception that `handle_ajax`'s
`except InvalidRequestException` does not catch. -/
theorem bad_range_header_untyped_error (store : List StagedFile) (csrf : String)
    (fresh_id : Nat) (upload_id : Option String) (fname : String) (payload : List Nat) :
    handle_chunked store csrf fresh_id (some (r"units 0-9/10")) upload_id fname payload
      = (.error .attribute_error, store) := rfl

/-! ## Reconciler theorems -/

theorem match_content_range_len (hdr : String) (g : List Char × List Char × List Char)
    (h : match_content_range hdr = some g) : ¬ hdr.length = 0 := by
  intro h0
  have hl : hdr.toList = [] := by
    have hlen : hdr.toList.length = 0 := h0
    exact List.length_eq_zero.mp hlen
  rw [match_content_range, hl] at h
  simp at h

/-- C5 (confirmed): a chunked upload whose parsed closed range
`[start_byte, end_byte]` passes the range validations but intersects some
existing chunk of the same (csrf scope, upload group) — intersection as
`existing.start <= new.end && existing.end >= new.start` — fails with the
"Overlapping chunks" error (the spec's OverlapError) and leaves the store
exactly unchanged: no partial insert. -/
theorem overlapping_chunk_rejected
    (store : List StagedFile) (csrf : String) (fresh_id : Nat)
    (hdr cid fname : String) (payload : List Nat)
    (g1 g2 g3 : List Char) (t sb eb : Nat)
    (hmatch : match_content_range hdr = some (g1, g2, g3))
    (hsb : nat_of_digits g1 = sb) (heb : nat_of_digits g2 = eb)
    (ht : py_int g3 = some t)
    (hrange : sb ≤ eb) (htot : eb < t)
    (hlen : eb - sb + 1 = payload.length)
    (hcid : ¬ cid.length = 0) (hcid2 : cid.length ≤ 128)
    (hoverlap : (group_chunks store csrf cid).any (overlaps_new sb eb) = true) :
    handle_chunked store csrf fresh_id (some hdr) (some cid) fname payload
      = (.error (.invalid_request (r"Overlapping chunks")), store) := by
  subst hsb
  subst heb
  have hne := match_content_range_len hdr _ hmatch
  unfold handle_chunked
  simp only [hmatch, ht]
  rw [if_neg hne]
  rw [if_neg (by omega), if_neg (by omega), if_neg (by omega)]
  rw [if_neg hcid, if_neg (by omega)]
  cases hgc : group_chunks store csrf cid with
  | nil => rw [hgc] at hoverlap; simp at hoverlap
  | cons c0 rest =>
    rw [hgc] at hoverlap
    dsimp only
    rw [if_pos hoverlap]

/-- Witness for C5: a second chunk `[2, 4]` overlapping the stored chunk
`[0, 2]` of the same group is rejected and the store is untouched. -/
theorem overlapping_chunk_rejected_witness :
    handle_chunked [c5_existing] (r"t") 8 (some (r"bytes 2-4/10")) (some (r"u"))
      (r"f") [4, 5, 6]
      = (.error (.invalid_request (r"Overlapping chunks")), [c5_existing]) :=
  overlapping_chunk_rejected [c5_existing] (r"t") 8 (r"bytes 2-4/10") (r"u") (r"f")
    [4, 5, 6] ['2'] ['4'] ['1', '0'] 10 2 4
    (by decide) (by decide) (by decide) (by decide) (by decide) (by decide)
    (by decide) (by decide) (by decide) (by decide)

/-- C9 counterexample: the non-ranged handler stores the chunk with
`total_size` set to the payload size (3), not unset as the claim states. -/
theorem single_chunk_total_size_set_cex :
    (handle_complete [] (r"t") 7 (r"f") [5, 6, 7]).2 = [c9_stored] ∧
    c9_stored.total_size = some 3 ∧ ¬ c9_stored.total_size = none :=
  ⟨rfl, rfl, by decide⟩

/-- C9 (amended; corrected): a single-chunk (non-ranged) upload stores the
degenerate chunk `start_byte = 0`, `end_byte = payload size - 1`,
`client_id` null (so it joins no upload group and always forms its own new
logical file) and a freshly minted `logical_file_id` — but with
`declared total size` *set to the payload size*, not unset. -/
theorem single_chunk_degenerate_store
    (store : List StagedFile) (csrf fname : String) (fresh_id : Nat)
    (payload : List Nat) (hne : payload ≠ []) :
    ∃ nc : StagedFile,
      (handle_complete store csrf fresh_id fname payload).2 = store ++ [nc] ∧
      (handle_complete store csrf fresh_id fname payload).1
        = .ok { filename := fname, uuid := fresh_id } ∧
      nc.start_byte = 0 ∧
      nc.end_byte = payload.length - 1 ∧
      nc.total_size = some payload.length ∧
      nc.client_id = none ∧
      nc.file_id = fresh_id ∧
      (∀ tenant cid, group_chunks (store ++ [nc]) tenant cid
        = group_chunks store tenant cid) := by
  refine ⟨create_chunk csrf none fname fresh_id payload 0 (payload.length - 1)
    (some payload.length), rfl, rfl, rfl, rfl, rfl, rfl, rfl, ?_⟩
  intro tenant cid
  unfold group_chunks
  rw [List.filter_append]
  have hnil : [create_chunk csrf none fname fresh_id payload 0 (payload.length - 1)
      (some payload.length)].filter
      (fun c => c.csrf == tenant && c.client_id == some cid) = [] := by
    simp [create_chunk]
  rw [hnil, List.append_nil]

/-- Witness for C9 (amended) at a concrete 3-byte upload. -/
theorem single_chunk_degenerate_store_witness :
    ∃ nc : StagedFile,
      (handle_complete [] (r"t") 7 (r"f") [5, 6, 7]).2 = [] ++ [nc] ∧
      (handle_complete [] (r"t") 7 (r"f") [5, 6, 7]).1
        = .ok { filename := (r"f"), uuid := 7 } ∧
      nc.start_byte = 0 ∧
      nc.end_byte = [5, 6, 7].length - 1 ∧
      nc.total_size = some [5, 6, 7].length ∧
      nc.client_id = none ∧
      nc.file_id = 7 ∧
      (∀ tenant cid, group_chunks ([] ++ [nc]) tenant cid
        = group_chunks [] tenant cid) :=
  single_chunk_degenerate_store [] (r"t") (r"f") 7 [5, 6, 7] (by decide)

/-- C10 (confirmed): every chunk row actually created by the upload
handlers carries a non-null `total_size`: any row in the store after a
chunked or non-chunked call was either already there or has
`total_size.isSome`; and a Content-Range whose total-length field is `*`
(accepted by the header pattern) aborts the chunked call with the untyped
ValueError from `int("*")` before any store, so a stored chunk with no
declared total size is unreachable through the upload interface. -/
theorem stored_chunks_have_total_size
    (store : List StagedFile) (csrf : String) (fresh_id : Nat)
    (range_header upload_id : Option String) (fname : String) (payload : List Nat)
    (hdr2 : String) (g1 g2 : List Char) (c : StagedFile) :
    (c ∈ (handle_chunked store csrf fresh_id range_header upload_id fname payload).2 →
      c ∈ store ∨ c.total_size.isSome = true) ∧
    (c ∈ (handle_complete store csrf fresh_id fname payload).2 →
      c ∈ store ∨ c.total_size.isSome = true) ∧
    (match_content_range hdr2 = some (g1, g2, ['*']) →
      handle_chunked store csrf fresh_id (some hdr2) upload_id fname payload
        = (.error .value_error, store)) := by
  refine ⟨?_, ?_, ?_⟩
  · intro h
    unfold handle_chunked at h
    iterate 16 (all_goals (try dsimp only at h); all_goals (try split at h))
    all_goals first
      | exact Or.inl h
      | (rcases List.mem_append.1 h with h' | h'
         · exact Or.inl h'
         · rw [List.mem_singleton] at h'
           subst h'
           exact Or.inr rfl)
  · intro h
    unfold handle_complete at h
    rcases List.mem_append.1 h with h' | h'
    · exact Or.inl h'
    · rw [List.mem_singleton] at h'
      subst h'
      exact Or.inr rfl
  · intro hm
    unfold handle_chunked
    simp only [hm]
    rw [if_neg (match_content_range_len hdr2 _ hm)]
    rfl

/-- Witness for C10: the chunk stored by a concrete chunked upload into an
empty store has a declared total size, and the `*` total-length form
aborts with ValueError leaving the store empty. -/
theorem stored_chunks_have_total_size_witness :
    (c10_new ∈ ([] : List StagedFile) ∨ c10_new.total_size.isSome = true) ∧
    handle_chunked [] (r"t") 3 (some (r"bytes 0-2/*")) (some (r"u")) (r"f") [1, 2, 3]
      = (.error .value_error, []) := by
  constructor
  · exact (stored_chunks_have_total_size [] (r"t") 3 (some (r"bytes 0-2/10"))
      (some (r"u")) (r"f") [1, 2, 3] (r"x") [] [] c10_new).1 (by decide)
  · exact (stored_chunks_have_total_size [] (r"t") 3 (some (r"bytes 0-2/*"))
      (some (r"u")) (r"f") [1, 2, 3] (r"bytes 0-2/*") ['0'] ['2'] c10_new).2.2 (by decide)

theorem sum_take_zero (lens : List (Nat × α)) : sum_take lens 0 = 0 := rfl

theorem sum_take_cons_succ (p : Nat × α) (rest : List (Nat × α)) (k : Nat) :
    sum_take (p :: rest) (k + 1) = p.1 + sum_take rest k := by
  simp [sum_take, lens_sum]

theorem sum_take_mono (lens : List (Nat × α)) :
    ∀ j1 j2, j1 ≤ j2 → sum_take lens j1 ≤ sum_take lens j2 := by
  induction lens with
  | nil =>
    intro j1 j2 _
    simp [sum_take, lens_sum]
  | cons p rest ih =>
    intro j1 j2 h
    cases j1 with
    | zero => rw [sum_take_zero]; exact Nat.zero_le _
    | succ j1' =>
      cases j2 with
      | zero => omega
      | succ j2' =>
        rw [sum_take_cons_succ, sum_take_cons_succ]
        exact Nat.add_le_add_left (ih j1' j2' (by omega)) _

theorem sum_take_succ_of_get? (lens : List (Nat × α)) :
    ∀ k p, lens.get? k = some p → sum_take lens (k + 1) = sum_take lens k + p.1 := by
  induction lens with
  | nil => intro k p h; simp at h
  | cons q rest ih =>
    intro k p h
    cases k with
    | zero =>
      rw [List.get?_cons_zero] at h
      cases h
      rw [sum_take_cons_succ, sum_take_zero, sum_take_zero]
      omega
    | succ k' =>
      rw [List.get?_cons_succ] at h
      rw [sum_take_cons_succ, sum_take_cons_succ, ih k' p h]
      omega

theorem sum_take_length (lens : List (Nat × α)) :
    sum_take lens lens.length = lens_sum lens := by
  unfold sum_take
  rw [List.take_length]

theorem cumul_length (lens : List (Nat × α)) :
    ∀ acc, (cumul acc lens).length = lens.length := by
  induction lens with
  | nil => intro acc; rfl
  | cons p rest ih =>
    intro acc
    cases p with
    | mk len lab => simp [cumul, ih]

theorem cumul_get? (lens : List (Nat × α)) :
    ∀ acc k p, lens.get? k = some p →
      (cumul acc lens).get? k = some (acc + sum_take lens (k + 1), p.2) := by
  induction lens with
  | nil => intro acc k p h; simp at h
  | cons q rest ih =>
    intro acc k p h
    cases q with
    | mk len lab =>
      cases k with
      | zero =>
        rw [List.get?_cons_zero] at h
        cases h
        show some (acc + len, lab) = _
        rw [sum_take_cons_succ, sum_take_zero]
        simp
      | succ k' =>
        rw [List.get?_cons_succ] at h
        show (cumul (acc + len) rest).get? k' = _
        rw [ih (acc + len) k' p h, sum_take_cons_succ]
        congr 2
        omega

theorem ep_at_cumul (lens : List (Nat × α)) (acc k : Nat) (p : Nat × α)
    (h : lens.get? k = some p) :
    ep_at (cumul acc lens) k = acc + sum_take lens (k + 1) := by
  simp only [ep_at, cumul_get? lens acc k p h]

theorem lab_at_cumul (lens : List (Nat × α)) (acc k : Nat) (p : Nat × α)
    (h : lens.get? k = some p) :
    lab_at (cumul acc lens) k = some p.2 := by
  simp only [lab_at, cumul_get? lens acc k p h, Option.map]

theorem build_intervals_eq (lens : List (Nat × α)) :
    ∀ m, List.Sorted (fun a b : Nat × α => a.1 ≤ b.1) m →
      build_intervals lens m = m ++ cumul (map_len m) lens := by
  induction lens with
  | nil => intro m _; simp [build_intervals, cumul]
  | cons q rest ih =>
    intro m hs
    cases q with
    | mk len lab =>
      show build_intervals rest (append_interval m len lab) = _
      have hai := append_interval_of_sorted m len lab hs
      rw [hai.1, ih (m ++ [(map_len m + len, lab)]) hai.2, map_len_concat]
      show _ = m ++ ((map_len m + len, lab) :: cumul (map_len m + len) rest)
      rw [List.append_assoc, List.singleton_append]

theorem map_len_cumul_zero (lens : List (Nat × α)) :
    map_len (cumul 0 lens) = lens_sum lens := by
  cases hl : lens with
  | nil => rfl
  | cons q rest =>
    rw [← hl]
    have hne : lens ≠ [] := by rw [hl]; simp
    have hne' : cumul 0 lens ≠ [] := by
      intro he
      have := cumul_length lens 0
      rw [he] at this
      rw [hl] at this
      simp at this
    rw [map_len_eq_ep_last _ hne', cumul_length]
    have hlt : lens.length - 1 < lens.length := by
      rw [hl]; simp
    cases hp : lens.get? (lens.length - 1) with
    | none => rw [List.get?_eq_none] at hp; omega
    | some p =>
      rw [ep_at_cumul lens 0 (lens.length - 1) p hp]
      have h1 : lens.length - 1 + 1 = lens.length := by omega
      rw [h1, Nat.zero_add, sum_take_length]

theorem cumul_mono (lens : List (Nat × α)) (hpos : ∀ p ∈ lens, 0 < p.1) :
    ∀ a b, a ≤ b → b < (cumul 0 lens).length →
      ep_at (cumul 0 lens) a ≤ ep_at (cumul 0 lens) b := by
  intro a b hab hb
  rw [cumul_length] at hb
  cases hpa : lens.get? a with
  | none => rw [List.get?_eq_none] at hpa; omega
  | some pa =>
    cases hpb : lens.get? b with
    | none => rw [List.get?_eq_none] at hpb; omega
    | some pb =>
      rw [ep_at_cumul lens 0 a pa hpa, ep_at_cumul lens 0 b pb hpb]
      exact Nat.add_le_add_left (sum_take_mono lens (a + 1) (b + 1) (by omega)) _

/-- C8 (confirmed): in an interval map built by appending intervals of
positive lengths, lookup at the exact first byte of interval `j` returns
interval `j`'s label (not the previous interval's); the map's length is
the sum of the appended lengths; lookup at any offset at or past that
total length is "not found"; and the empty map has length 0 with every
lookup "not found". -/
theorem interval_map_boundary_lookup {α : Type} (lens : List (Nat × α))
    (hpos : ∀ p ∈ lens, 0 < p.1) :
    (∀ j p, lens.get? j = some p →
      interval_get (build_intervals lens []) (sum_take lens j) = some p.2) ∧
    map_len (build_intervals lens []) = lens_sum lens ∧
    (∀ i, lens_sum lens ≤ i → interval_get (build_intervals lens []) i = none) ∧
    map_len ([] : List (Nat × α)) = 0 ∧
    (∀ i, interval_get ([] : List (Nat × α)) i = none) := by
  have hbuild : build_intervals lens [] = cumul 0 lens := by
    rw [build_intervals_eq lens [] List.sorted_nil]
    rfl
  have hmap : map_len (build_intervals lens []) = lens_sum lens := by
    rw [hbuild, map_len_cumul_zero]
  refine ⟨?_, hmap, ?_, rfl, ?_⟩
  · intro j p hj
    have hjl : j < lens.length := by
      by_contra hge
      rw [List.get?_eq_none.mpr (by omega)] at hj
      cases hj
    rw [hbuild]
    have hfind : find_endpoint_index (cumul 0 lens) (sum_take lens j) = some j := by
      apply find_endpoint_index_eq (cumul 0 lens) (cumul_mono lens hpos)
        (sum_take lens j) j (by rw [cumul_length]; exact hjl)
      · intro k hk
        cases hpk : lens.get? k with
        | none => rw [List.get?_eq_none] at hpk; omega
        | some pk =>
          rw [ep_at_cumul lens 0 k pk hpk, Nat.zero_add]
          exact sum_take_mono lens (k + 1) j (by omega)
      · rw [ep_at_cumul lens 0 j p hj, Nat.zero_add]
        rw [sum_take_succ_of_get? lens j p hj]
        have := hpos p (List.get?_mem hj)
        omega
    unfold interval_get
    rw [hfind]
    show lab_at (cumul 0 lens) j = some p.2
    exact lab_at_cumul lens 0 j p hj
  · intro i hi
    unfold interval_get find_endpoint_index
    rw [if_pos (by rw [hmap]; exact hi)]
  · intro i
    unfold interval_get find_endpoint_index
    rw [if_pos (by show map_len ([] : List (Nat × α)) ≤ i; exact Nat.zero_le i)]

/-- Witness for C8: in the map of intervals (2, label 10) and (3, label
20), lookup at offset 2 — the first byte of the second interval — returns
label 20, the length is 5, and lookup at 5 is "not found". -/
theorem interval_map_boundary_lookup_witness :
    interval_get (build_intervals [(2, 10), (3, 20)] [])
      (sum_take ([(2, 10), (3, 20)] : List (Nat × Nat)) 1) = some 20 ∧
    map_len (build_intervals [(2, 10), (3, 20)] []) = 5 ∧
    interval_get (build_intervals ([(2, 10), (3, 20)] : List (Nat × Nat)) []) 5 = none := by
  have h := interval_map_boundary_lookup [(2, 10), (3, 20)] (by decide)
  exact ⟨h.1 1 (3, 20) (by decide), h.2.1, h.2.2.1 5 (by decide)⟩
